import Mathlib

/-!
# EduTrack core: Fee Ledger & Roadmap Tree — verification development

Shallow embedding of the fee-ledger cascade (src/core/models.py,
class FeesStatus: save, _update_parent_pending, _check_discontinuation,
is_overdue), the admin bulk actions (src/core/admin.py,
FeesStatusAdmin.mark_as_paid and friends), and the roadmap-topic tree
helpers (src/core/models.py RoadmapTopic.get_level / get_children,
src/core/views.py _build_topic_tree).

Conventions of the embedding:
* Django rows become records in lists; a table is a list of rows in
  database order, and an ORM `filter` is a `List.filter` preserving
  that order.
* `DecimalField` amounts and dates are embedded as `Int` (dates as day
  numbers); only comparison and summation are used by the code.
* A fallible step (an ORM lookup that can raise) returns `Except Unit`;
  the `try/except Exception: pass` wrappers in the source become a
  `match` that drops the error and returns the untouched state.
-/

namespace EduTrack

/-- Fee payment status: STATUS_CHOICES of FeesStatus in models.py. -/
inductive Status where
  | unpaid
  | paid
  | overdue
  | waived
deriving DecidableEq, Repr

/-- One FeesStatus row (models.py): student FK, month, fee amount,
status, due date, nullable paid date. -/
structure FeeRec where
  id : Nat
  studentId : Nat
  month : String
  fees : Int
  status : Status
  due_date : Int
  paid_date : Option Int
deriving DecidableEq, Repr

/-- One Student row: guardian FK (nullable) and the derived
is_active flag. -/
structure StudentRec where
  id : Nat
  parent : Option Nat
  is_active : Bool
deriving DecidableEq, Repr

/-- One UserProfile row of a guardian: the cached pending_amount. -/
structure ProfileRec where
  userId : Nat
  pending_amount : Int
deriving DecidableEq, Repr

/-- The database state the fee cascade reads and writes. -/
structure State where
  fees : List FeeRec
  students : List StudentRec
  profiles : List ProfileRec
deriving DecidableEq, Repr

def findFee (sigma : State) (i : Nat) : Option FeeRec :=
  sigma.fees.find? (fun r => r.id == i)

def findStudent (sigma : State) (i : Nat) : Option StudentRec :=
  sigma.students.find? (fun s => s.id == i)

def findProfile (sigma : State) (i : Nat) : Option ProfileRec :=
  sigma.profiles.find? (fun p => p.userId == i)

/-- Persist a fee row: overwrite the row with the same primary key. -/
def putFee (sigma : State) (r : FeeRec) : State :=
  { sigma with fees := sigma.fees.map (fun x => if x.id == r.id then r else x) }

def putStudent (sigma : State) (s : StudentRec) : State :=
  { sigma with students := sigma.students.map (fun x => if x.id == s.id then s else x) }

def putProfile (sigma : State) (p : ProfileRec) : State :=
  { sigma with profiles := sigma.profiles.map (fun x => if x.userId == p.userId then p else x) }

/-- The aggregate of _update_parent_pending:
`FeesStatus.objects.filter(student=s, status__in=['unpaid','overdue'])
.aggregate(Sum('fees'))['total'] or 0`. -/
def pendingSum (sigma : State) (sid : Nat) : Int :=
  ((sigma.fees.filter
      (fun r => r.studentId == sid &&
        (r.status == Status.unpaid || r.status == Status.overdue))).map
    (fun r => r.fees)).sum

/-- The count of _check_discontinuation:
`FeesStatus.objects.filter(student=s, status='overdue').count()`. -/
def overdueCount (sigma : State) (sid : Nat) : Nat :=
  (sigma.fees.filter
    (fun r => r.studentId == sid && r.status == Status.overdue)).length

/-- Body of FeesStatus._update_parent_pending before the exception
handler: resolve the student (FK access can raise, hence Except),
return unchanged if the student has no parent, resolve the parent's
profile (raises when the profile row is missing), then store the
per-student pending sum on it. -/
def updateParentPendingCore (sigma : State) (sid : Nat) : Except Unit State :=
  match findStudent sigma sid with
  | none => Except.error ()
  | some st =>
    match st.parent with
    | none => Except.ok sigma
    | some pid =>
      match findProfile sigma pid with
      | none => Except.error ()
      | some pr =>
        Except.ok (putProfile sigma { pr with pending_amount := pendingSum sigma sid })

/-- FeesStatus._update_parent_pending: the core wrapped in
`try: ... except Exception: pass` — an error leaves the state as is. -/
def updateParentPending (sigma : State) (sid : Nat) : State :=
  match updateParentPendingCore sigma sid with
  | Except.ok s => s
  | Except.error _ => sigma

/-- Body of FeesStatus._check_discontinuation before the exception
handler: count overdue records; 2 or more deactivates the student,
fewer reactivates. -/
def checkDiscontinuationCore (sigma : State) (sid : Nat) : Except Unit State :=
  match findStudent sigma sid with
  | none => Except.error ()
  | some st =>
    if 2 ≤ overdueCount sigma sid then
      Except.ok (putStudent sigma { st with is_active := false })
    else
      Except.ok (putStudent sigma { st with is_active := true })

/-- FeesStatus._check_discontinuation: core wrapped in
`try: ... except Exception: pass`. -/
def checkDiscontinuation (sigma : State) (sid : Nat) : State :=
  match checkDiscontinuationCore sigma sid with
  | Except.ok s => s
  | Except.error _ => sigma

/-- The paid_date adjustment at the top of FeesStatus.save:
set paid_date to today when marked paid with no paid_date, and clear
it whenever the status is not paid. -/
def adjustPaidDate (r : FeeRec) (today : Int) : FeeRec :=
  let r1 := if r.status == Status.paid && r.paid_date == none
            then { r with paid_date := some today } else r
  if r1.status != Status.paid then { r1 with paid_date := none } else r1

/-- FeesStatus.save: adjust paid_date, persist the row, then run the
two recompute steps (each swallowing its own exceptions). -/
def save (sigma : State) (r : FeeRec) (today : Int) : State :=
  let r2 := adjustPaidDate r today
  let s1 := putFee sigma r2
  let s2 := updateParentPending s1 r2.studentId
  checkDiscontinuation s2 r2.studentId

/-- set_status on a record entity: assign the new status and save —
this is how every caller in the repository mutates a fee status
(admin actions and fee views set `fee.status` then call `fee.save()`). -/
def set_status (sigma : State) (r : FeeRec) (s : Status) (today : Int) : State :=
  save sigma { r with status := s } today

/-- FeesStatus.is_overdue (models.py): unpaid and strictly past due. -/
def is_overdue (r : FeeRec) (today : Int) : Bool :=
  r.status == Status.unpaid && r.due_date < today

/-- The loop body of the admin bulk actions (admin.py mark_as_paid /
mark_as_overdue / mark_as_waived): `for fee in queryset:
fee.status = s; fee.save()`, written as explicit recursion over the
queryset snapshot. -/
def adminBulkMark (sigma : State) (qs : List FeeRec) (s : Status) (today : Int) : State :=
  match qs with
  | [] => sigma
  | fee :: rest => adminBulkMark (save sigma { fee with status := s } today) rest s today

/-- Spec-side bulk_set_status (spec 4.1): applies set_status to each
record independently and individually, in order. -/
def specBulkSetStatus (sigma : State) (qs : List FeeRec) (s : Status) (today : Int) : State :=
  qs.foldl (fun acc fee => set_status acc fee s today) sigma

/-- Spec-side reading of the guardian-wide invariant (spec section 3):
sum of fees over the records of ALL students whose parent is the
guardian, restricted to status unpaid or overdue. -/
def guardianWideSum (sigma : State) (pid : Nat) : Int :=
  ((sigma.fees.filter
      (fun r =>
        (match findStudent sigma r.studentId with
         | some st => st.parent == some pid
         | none => false) &&
        (r.status == Status.unpaid || r.status == Status.overdue))).map
    (fun r => r.fees)).sum

/-- One RoadmapTopic row (models.py): self-referencing parent FK,
sibling ordering key, title. Fields not used by the embedded helpers
are omitted. -/
structure PyTopic where
  id : Nat
  title : String
  order : Int
  parent : Option Nat
deriving DecidableEq, Repr

/-- Resolve a topic's parent_topic FK against the full topic table. -/
def findTopic (univ : List PyTopic) (i : Nat) : Option PyTopic :=
  univ.find? (fun t => t.id == i)

/-- RoadmapTopic.get_level, with explicit fuel standing for the number
of loop iterations the `while parent:` loop is allowed: the source has
no cycle guard, so a parent cycle never exits the loop; here that
surfaces as `none` for every fuel bound. -/
def getLevelF (univ : List PyTopic) : Nat → PyTopic → Option Nat
  | 0, t =>
    match t.parent.bind (findTopic univ) with
    | none => some 0
    | some _ => none
  | fuel + 1, t =>
    match t.parent.bind (findTopic univ) with
    | none => some 0
    | some p => (getLevelF univ fuel p).map (fun l => l + 1)

/-- get_level terminates on a topic iff some finite iteration bound
suffices for its ancestor walk. -/
def GetLevelTerminates (univ : List PyTopic) (t : PyTopic) : Prop :=
  ∃ fuel, (getLevelF univ fuel t).isSome

instance (univ : List PyTopic) (t : PyTopic) (fuel : Nat) :
    Decidable ((getLevelF univ fuel t).isSome = true) := by
  unfold Option.isSome
  exact inferInstance

/-- Stable insertion of a topic into a list sorted by the `order` key:
an element with an equal key stays behind the ones already present. -/
def insertByOrder (t : PyTopic) : List PyTopic → List PyTopic
  | [] => [t]
  | x :: xs => if t.order ≤ x.order then t :: x :: xs else x :: insertByOrder t xs

/-- Stable sort by the `order` key: the embedding of the SQL
`ORDER BY "order"` that a single-key order_by produces. Rows with
equal keys keep their relative table order. -/
def sortByOrder : List PyTopic → List PyTopic
  | [] => []
  | x :: xs => insertByOrder x (sortByOrder xs)

/-- RoadmapTopic.get_children: `self.subtopics.all().order_by('order')`
— the rows whose parent_topic is this topic, ordered by the single key
`order` (the explicit order_by replaces Meta.ordering). -/
def get_children (univ : List PyTopic) (t : PyTopic) : List PyTopic :=
  sortByOrder (univ.filter (fun c => c.parent == some t.id))

/-- A tree node produced by _build_topic_tree (views.py): the dict
with the topic's id, name and recursively nested children. -/
inductive TNode where
  | node (id : Nat) (name : String) (children : List TNode)

/-- The child-edge test of the second loop of _build_topic_tree:
`if topic.parent_topic_id and topic.parent_topic_id in topic_dict`.
A parent id of 0 is falsy in Python, hence the explicit 0 test. -/
def effParent (topics : List PyTopic) (t : PyTopic) : Option Nat :=
  match t.parent with
  | none => none
  | some p => if p ≠ 0 && topics.any (fun x => x.id == p) then some p else none

/-- The children list a node ends up with once the second loop of
_build_topic_tree finishes: the given topics, in input order, whose
effective parent is this id. -/
def childrenOf (topics : List PyTopic) (i : Nat) : List PyTopic :=
  topics.filter (fun t => effParent topics t == some i)

/-- The `tree` list of _build_topic_tree: topics appended at top level
because they have no effective parent inside the given set (orphan
promotion included). -/
def treeRoots (topics : List PyTopic) : List PyTopic :=
  topics.filter (fun t => effParent topics t == none)

/-- The object graph rooted at one topic after _build_topic_tree has
run, unfolded to the given depth: for an acyclic input, fuel
`topics.length` reproduces the whole (finite) graph. -/
def buildNode (topics : List PyTopic) : Nat → PyTopic → TNode
  | 0, t => TNode.node t.id t.title []
  | fuel + 1, t =>
    TNode.node t.id t.title
      ((childrenOf topics t.id).map (fun c => buildNode topics fuel c))

/-- Embedding of _build_topic_tree (views.py): the forest of node
dicts returned to the caller. -/
def buildTopicTree (topics : List PyTopic) : List TNode :=
  (treeRoots topics).map (fun r => buildNode topics topics.length r)

mutual

/-- Flatten one tree node: the id, followed by the ids of the subtree
in pre-order. -/
def flattenNode : TNode → List Nat
  | TNode.node i _ cs => i :: flattenForest cs

/-- Flatten a forest of tree nodes in order. -/
def flattenForest : List TNode → List Nat
  | [] => []
  | n :: ns => flattenNode n ++ flattenForest ns

end

/-- The id stored at a tree node. -/
def headId : TNode → Nat
  | TNode.node i _ _ => i

mutual

/-- Parent/child id pairs of one materialized tree node. -/
def edgesNode : TNode → List (Nat × Nat)
  | TNode.node i _ cs =>
      cs.map (fun c => (i, headId c)) ++ edgesForest cs

/-- Parent/child id pairs of a materialized forest. -/
def edgesForest : List TNode → List (Nat × Nat)
  | [] => []
  | n :: ns => edgesNode n ++ edgesForest ns

end

/-- Depth of a topic inside the given set, following effective-parent
links, with fuel: some d when the walk reaches a root within the fuel
bound. -/
def depthAux (topics : List PyTopic) : Nat → PyTopic → Option Nat
  | 0, t =>
    match effParent topics t with
    | none => some 0
    | some _ => none
  | fuel + 1, t =>
    match effParent topics t with
    | none => some 0
    | some p =>
      match topics.find? (fun x => x.id == p) with
      | none => none
      | some tp => (depthAux topics fuel tp).map (fun d => d + 1)

def depthOf (topics : List PyTopic) (t : PyTopic) : Option Nat :=
  depthAux topics topics.length t

/-- The given topic collection is acyclic: every effective-parent walk
reaches a root within |topics| steps. -/
def AcyclicTopics (topics : List PyTopic) : Prop :=
  ∀ t ∈ topics, (depthOf topics t).isSome

/-- The ancestor chain of a topic inside the set (self first), with
fuel; under acyclicity, fuel |topics| yields the full chain. -/
def chainAux (topics : List PyTopic) : Nat → PyTopic → List PyTopic
  | 0, t => [t]
  | fuel + 1, t =>
    t ::
      (match effParent topics t with
       | none => []
       | some p =>
         match topics.find? (fun x => x.id == p) with
         | none => []
         | some tp => chainAux topics fuel tp)

/-- u lies in the subtree of t: t occurs on u's ancestor chain. -/
def InSubtree (topics : List PyTopic) (t u : PyTopic) : Prop :=
  t ∈ chainAux topics topics.length u

instance (topics : List PyTopic) : Decidable (AcyclicTopics topics) := by
  unfold AcyclicTopics
  exact inferInstance

instance (topics : List PyTopic) (t u : PyTopic) :
    Decidable (InSubtree topics t u) := by
  unfold InSubtree
  exact inferInstance

/-! ## Shared lemmas about the fee-ledger state -/

/-- Replacing the row that carries a present key makes the lookup of
that key return the replacement. -/
theorem find?_map_replace {α : Type} (key : α → Nat) (l : List α) (b : α) (k : Nat)
    (hbk : key b = k) (h : (l.find? (fun x => key x == k)).isSome) :
    (l.map (fun x => if key x == key b then b else x)).find? (fun x => key x == k)
      = some b := by
  induction l with
  | nil => simp at h
  | cons x xs ih =>
    by_cases hx : key x = k
    · have hxb : (key x == key b) = true := by
        rw [hbk]
        exact beq_iff_eq.mpr hx
      simp only [List.map_cons, hxb, if_true]
      exact List.find?_cons_of_pos _ (beq_iff_eq.mpr hbk)
    · have hxb : (key x == key b) = false := by
        rw [hbk]
        exact beq_eq_false_iff_ne.mpr hx
      have hxk : (key x == k) = false := by simp [hx]
      simp only [List.map_cons, hxb, Bool.false_eq_true, if_false, List.find?_cons, hxk]
      apply ih
      simpa only [List.find?_cons, hxk] using h

theorem students_putFee (sigma : State) (r : FeeRec) :
    (putFee sigma r).students = sigma.students := rfl

theorem profiles_putFee (sigma : State) (r : FeeRec) :
    (putFee sigma r).fees = sigma.fees.map (fun x => if x.id == r.id then r else x) ∧
      (putFee sigma r).profiles = sigma.profiles := ⟨rfl, rfl⟩

theorem updateParentPendingCore_ok (sigma : State) (sid : Nat) (s : State)
    (h : updateParentPendingCore sigma sid = Except.ok s) :
    s.fees = sigma.fees ∧ s.students = sigma.students := by
  unfold updateParentPendingCore at h
  split at h
  · cases h
  · split at h
    · cases h
      exact ⟨rfl, rfl⟩
    · split at h
      · cases h
      · cases h
        exact ⟨rfl, rfl⟩

theorem checkDiscontinuationCore_ok (sigma : State) (sid : Nat) (s : State)
    (h : checkDiscontinuationCore sigma sid = Except.ok s) :
    s.fees = sigma.fees ∧ s.profiles = sigma.profiles := by
  unfold checkDiscontinuationCore at h
  split at h
  · cases h
  · split at h
    · cases h
      exact ⟨rfl, rfl⟩
    · cases h
      exact ⟨rfl, rfl⟩

theorem fees_updateParentPending (sigma : State) (sid : Nat) :
    (updateParentPending sigma sid).fees = sigma.fees := by
  unfold updateParentPending
  cases hcore : updateParentPendingCore sigma sid with
  | error e => rfl
  | ok s => exact (updateParentPendingCore_ok sigma sid s hcore).1

theorem students_updateParentPending (sigma : State) (sid : Nat) :
    (updateParentPending sigma sid).students = sigma.students := by
  unfold updateParentPending
  cases hcore : updateParentPendingCore sigma sid with
  | error e => rfl
  | ok s => exact (updateParentPendingCore_ok sigma sid s hcore).2

theorem fees_checkDiscontinuation (sigma : State) (sid : Nat) :
    (checkDiscontinuation sigma sid).fees = sigma.fees := by
  unfold checkDiscontinuation
  cases hcore : checkDiscontinuationCore sigma sid with
  | error e => rfl
  | ok s => exact (checkDiscontinuationCore_ok sigma sid s hcore).1

theorem profiles_checkDiscontinuation (sigma : State) (sid : Nat) :
    (checkDiscontinuation sigma sid).profiles = sigma.profiles := by
  unfold checkDiscontinuation
  cases hcore : checkDiscontinuationCore sigma sid with
  | error e => rfl
  | ok s => exact (checkDiscontinuationCore_ok sigma sid s hcore).2

theorem pendingSum_congr {s t : State} (h : s.fees = t.fees) (sid : Nat) :
    pendingSum s sid = pendingSum t sid := by
  unfold pendingSum
  rw [h]

theorem overdueCount_congr {s t : State} (h : s.fees = t.fees) (sid : Nat) :
    overdueCount s sid = overdueCount t sid := by
  unfold overdueCount
  rw [h]

theorem findStudent_congr {s t : State} (h : s.students = t.students) (i : Nat) :
    findStudent s i = findStudent t i := by
  unfold findStudent
  rw [h]

theorem findProfile_congr {s t : State} (h : s.profiles = t.profiles) (i : Nat) :
    findProfile s i = findProfile t i := by
  unfold findProfile
  rw [h]

theorem findFee_congr {s t : State} (h : s.fees = t.fees) (i : Nat) :
    findFee s i = findFee t i := by
  unfold findFee
  rw [h]

theorem adjustPaidDate_studentId (r : FeeRec) (today : Int) :
    (adjustPaidDate r today).studentId = r.studentId := by
  unfold adjustPaidDate
  by_cases h1 : (r.status == Status.paid && r.paid_date == none) = true
  · simp only [h1, if_true]
    by_cases h2 : (FeeRec.status { r with paid_date := some today } != Status.paid) = true
    · simp [h2]
    · simp [h2]
  · simp only [Bool.not_eq_true] at h1
    simp only [h1, Bool.false_eq_true, if_false]
    by_cases h2 : (r.status != Status.paid) = true
    · simp [h2]
    · simp [h2]

theorem adjustPaidDate_id (r : FeeRec) (today : Int) :
    (adjustPaidDate r today).id = r.id := by
  unfold adjustPaidDate
  by_cases h1 : (r.status == Status.paid && r.paid_date == none) = true
  · simp only [h1, if_true]
    by_cases h2 : (FeeRec.status { r with paid_date := some today } != Status.paid) = true
    · simp [h2]
    · simp [h2]
  · simp only [Bool.not_eq_true] at h1
    simp only [h1, Bool.false_eq_true, if_false]
    by_cases h2 : (r.status != Status.paid) = true
    · simp [h2]
    · simp [h2]

theorem save_eq (sigma : State) (r : FeeRec) (today : Int) :
    save sigma r today =
      checkDiscontinuation
        (updateParentPending (putFee sigma (adjustPaidDate r today))
          ((adjustPaidDate r today).studentId))
        ((adjustPaidDate r today).studentId) := rfl

theorem fees_save (sigma : State) (r : FeeRec) (today : Int) :
    (save sigma r today).fees = (putFee sigma (adjustPaidDate r today)).fees := by
  rw [save_eq, fees_checkDiscontinuation, fees_updateParentPending]

/-- Guardian-pending invariant for the generic write pipeline
putFee-then-recompute, with the saved row generalized to r2. -/
theorem pipeline_pending (sigma : State) (r2 : FeeRec) (st : StudentRec)
    (p : Nat) (pr : ProfileRec)
    (hst : findStudent sigma r2.studentId = some st)
    (hp : st.parent = some p)
    (hpr : findProfile sigma p = some pr) :
    (findProfile (checkDiscontinuation
        (updateParentPending (putFee sigma r2) r2.studentId) r2.studentId) p).map
      (fun q : ProfileRec => q.pending_amount)
      = some (pendingSum (checkDiscontinuation
          (updateParentPending (putFee sigma r2) r2.studentId) r2.studentId)
          r2.studentId) := by
  have hst1 : findStudent (putFee sigma r2) r2.studentId = some st := by
    rw [findStudent_congr (students_putFee _ _)]
    exact hst
  have hpr1 : findProfile (putFee sigma r2) p = some pr := by
    rw [findProfile_congr (profiles_putFee _ _).2]
    exact hpr
  have hupd : updateParentPending (putFee sigma r2) r2.studentId
      = putProfile (putFee sigma r2)
          { pr with pending_amount := (pendingSum (putFee sigma r2) r2.studentId) } := by
    unfold updateParentPending updateParentPendingCore
    simp only [hst1, hp, hpr1]
  have hpr2 : sigma.profiles.find? (fun q => q.userId == p) = some pr := hpr
  have hpru : pr.userId = p := by
    have h := List.find?_some hpr2
    simp only [beq_iff_eq] at h
    exact h
  have hfind : findProfile (checkDiscontinuation
      (updateParentPending (putFee sigma r2) r2.studentId) r2.studentId) p
      = some { pr with pending_amount := (pendingSum (putFee sigma r2) r2.studentId) } := by
    rw [findProfile_congr (profiles_checkDiscontinuation _ _), hupd]
    have hbase : ((putFee sigma r2).profiles.find?
        (fun q : ProfileRec => q.userId == p)).isSome = true := by
      have h : (putFee sigma r2).profiles.find?
          (fun q : ProfileRec => q.userId == p) = some pr := hpr1
      rw [h]
      rfl
    exact find?_map_replace (fun q : ProfileRec => q.userId) _ _ p hpru hbase
  have hfees : (checkDiscontinuation
      (updateParentPending (putFee sigma r2) r2.studentId) r2.studentId).fees
      = (putFee sigma r2).fees := by
    rw [fees_checkDiscontinuation, fees_updateParentPending]
  rw [hfind, Option.map_some', pendingSum_congr hfees]

/-- Discontinuation invariant for the generic write pipeline. -/
theorem pipeline_active (sigma : State) (r2 : FeeRec) (st : StudentRec)
    (hst : findStudent sigma r2.studentId = some st) :
    (findStudent (checkDiscontinuation
        (updateParentPending (putFee sigma r2) r2.studentId) r2.studentId)
        r2.studentId).map (fun q : StudentRec => q.is_active)
      = some (decide (overdueCount (checkDiscontinuation
          (updateParentPending (putFee sigma r2) r2.studentId) r2.studentId)
          r2.studentId < 2)) := by
  have hst2 : findStudent (updateParentPending (putFee sigma r2) r2.studentId)
      r2.studentId = some st := by
    rw [findStudent_congr (students_updateParentPending _ _),
      findStudent_congr (students_putFee _ _)]
    exact hst
  have hst3 : sigma.students.find? (fun x => x.id == r2.studentId) = some st := hst
  have hstid : st.id = r2.studentId := by
    have h := List.find?_some hst3
    simp only [beq_iff_eq] at h
    exact h
  have hcnt : overdueCount (checkDiscontinuation
      (updateParentPending (putFee sigma r2) r2.studentId) r2.studentId) r2.studentId
      = overdueCount (updateParentPending (putFee sigma r2) r2.studentId) r2.studentId :=
    overdueCount_congr (fees_checkDiscontinuation _ _) _
  have hbase : ((updateParentPending (putFee sigma r2) r2.studentId).students.find?
      (fun x : StudentRec => x.id == r2.studentId)).isSome = true := by
    have h : (updateParentPending (putFee sigma r2) r2.studentId).students.find?
        (fun x : StudentRec => x.id == r2.studentId) = some st := hst2
    rw [h]
    rfl
  rw [hcnt]
  by_cases hc : 2 ≤ overdueCount (updateParentPending (putFee sigma r2) r2.studentId)
      r2.studentId
  · have hchk : checkDiscontinuation
        (updateParentPending (putFee sigma r2) r2.studentId) r2.studentId
        = putStudent (updateParentPending (putFee sigma r2) r2.studentId)
            { st with is_active := false } := by
      unfold checkDiscontinuation checkDiscontinuationCore
      simp only [hst2, hc, if_true]
    have hb : StudentRec.id { st with is_active := false } = r2.studentId := hstid
    have hfind : findStudent
        (putStudent (updateParentPending (putFee sigma r2) r2.studentId)
          { st with is_active := false }) r2.studentId
        = some { st with is_active := false } :=
      find?_map_replace (fun x : StudentRec => x.id) _ _ _ hb hbase
    rw [hchk, hfind, Option.map_some']
    have hlt : ¬ (overdueCount (updateParentPending (putFee sigma r2) r2.studentId)
        r2.studentId < 2) := by omega
    simp [hlt]
  · have hchk : checkDiscontinuation
        (updateParentPending (putFee sigma r2) r2.studentId) r2.studentId
        = putStudent (updateParentPending (putFee sigma r2) r2.studentId)
            { st with is_active := true } := by
      unfold checkDiscontinuation checkDiscontinuationCore
      simp only [hst2, hc, if_false]
    have hb : StudentRec.id { st with is_active := true } = r2.studentId := hstid
    have hfind : findStudent
        (putStudent (updateParentPending (putFee sigma r2) r2.studentId)
          { st with is_active := true }) r2.studentId
        = some { st with is_active := true } :=
      find?_map_replace (fun x : StudentRec => x.id) _ _ _ hb hbase
    rw [hchk, hfind, Option.map_some']
    have hlt : overdueCount (updateParentPending (putFee sigma r2) r2.studentId)
        r2.studentId < 2 := by omega
    simp [hlt]

/-- After save, the guardian profile named by the student row carries
exactly the per-student pending sum of the post-write record set. -/
theorem save_pending (sigma : State) (r : FeeRec) (today : Int)
    (st : StudentRec) (p : Nat) (pr : ProfileRec)
    (hst : findStudent sigma r.studentId = some st)
    (hp : st.parent = some p)
    (hpr : findProfile sigma p = some pr) :
    (findProfile (save sigma r today) p).map (fun q : ProfileRec => q.pending_amount)
      = some (pendingSum (save sigma r today) r.studentId) := by
  have hsid := adjustPaidDate_studentId r today
  have hst2 : findStudent sigma (adjustPaidDate r today).studentId = some st := by
    rw [hsid]
    exact hst
  have h := pipeline_pending sigma (adjustPaidDate r today) st p pr hst2 hp hpr
  rw [← save_eq, hsid] at h
  exact h

/-- After save, the student row carries is_active iff the post-write
overdue count is below two. -/
theorem save_active (sigma : State) (r : FeeRec) (today : Int)
    (st : StudentRec)
    (hst : findStudent sigma r.studentId = some st) :
    (findStudent (save sigma r today) r.studentId).map (fun q : StudentRec => q.is_active)
      = some (decide (overdueCount (save sigma r today) r.studentId < 2)) := by
  have hsid := adjustPaidDate_studentId r today
  have hst2 : findStudent sigma (adjustPaidDate r today).studentId = some st := by
    rw [hsid]
    exact hst
  have h := pipeline_active sigma (adjustPaidDate r today) st hst2
  rw [← save_eq, hsid] at h
  exact h

/-- After save, looking up the saved row's key returns exactly the
paid-date-adjusted row, provided a row with that key was present. -/
theorem findFee_save (sigma : State) (rr : FeeRec) (today : Int)
    (h : (sigma.fees.find? (fun x : FeeRec => x.id == rr.id)).isSome = true) :
    findFee (save sigma rr today) rr.id = some (adjustPaidDate rr today) := by
  have hid := adjustPaidDate_id rr today
  have hcg : findFee (save sigma rr today) rr.id
      = findFee (putFee sigma (adjustPaidDate rr today)) rr.id :=
    findFee_congr (fees_save sigma rr today) _
  rw [hcg]
  exact find?_map_replace (fun x : FeeRec => x.id) _ _ _ hid h

/-! ## Claim theorems: fee ledger -/

/-- C10: is_overdue() is true exactly when the record's status is
unpaid and its due date is strictly before today; a record whose
status is overdue, paid or waived yields false regardless of dates. -/
theorem C10_is_overdue_characterization (r : FeeRec) (today : Int) :
    (is_overdue r today = true ↔ (r.status = Status.unpaid ∧ r.due_date < today)) ∧
    is_overdue { r with status := Status.overdue } today = false ∧
    is_overdue { r with status := Status.paid } today = false ∧
    is_overdue { r with status := Status.waived } today = false := by
  refine ⟨?_, rfl, rfl, rfl⟩
  unfold is_overdue
  simp [Bool.and_eq_true, beq_iff_eq, decide_eq_true_iff]

/-- C2: immediately after set_status on one of S's records, S's
is_active flag equals (current overdue count < 2) — recomputed from
the current state, so a student below two overdue records is
reactivated by the same write. -/
theorem C2_discontinuation_flag (sigma : State) (r : FeeRec) (s : Status) (today : Int)
    (st : StudentRec)
    (hst : findStudent sigma r.studentId = some st) :
    (findStudent (set_status sigma r s today) r.studentId).map
      (fun q : StudentRec => q.is_active)
      = some (decide (overdueCount (set_status sigma r s today) r.studentId < 2)) :=
  save_active sigma { r with status := s } today st hst

/-- C3: immediately after set_status on one of S's records, the
guardian profile's pending_amount equals the sum of fees over S's own
records with status unpaid or overdue, computed on the post-write
state. -/
theorem C3_guardian_pending (sigma : State) (r : FeeRec) (s : Status) (today : Int)
    (st : StudentRec) (p : Nat) (pr : ProfileRec)
    (hst : findStudent sigma r.studentId = some st)
    (hp : st.parent = some p)
    (hpr : findProfile sigma p = some pr) :
    (findProfile (set_status sigma r s today) p).map
      (fun q : ProfileRec => q.pending_amount)
      = some (pendingSum (set_status sigma r s today) r.studentId) :=
  save_pending sigma { r with status := s } today st p pr hst hp hpr

/-- C8: the admin bulk actions apply the full per-record save cascade
to each selected record in order, so the bulk action ends in exactly
the state that one-at-a-time set_status calls produce. -/
theorem C8_bulk_refines_sequential (sigma : State) (qs : List FeeRec)
    (s : Status) (today : Int) :
    adminBulkMark sigma qs s today = specBulkSetStatus sigma qs s today := by
  induction qs generalizing sigma with
  | nil => rfl
  | cons fee rest ih =>
    simp only [adminBulkMark, specBulkSetStatus, List.foldl_cons]
    exact ih _

/-- C4: after set_status(record, s) the stored record's paid_date is
today when s is Paid and it was unset, kept when s is Paid and it was
already set, and cleared when s is not Paid; a repeated Paid call
leaves the stored record, hence its paid_date, unchanged. -/
theorem C4_paid_date_rules (sigma : State) (r : FeeRec) (s : Status) (today : Int)
    (hmem : findFee sigma r.id = some r) :
    (s = Status.paid → r.paid_date = none →
      findFee (set_status sigma r s today) r.id
        = some { r with status := s, paid_date := some today }) ∧
    (∀ d : Int, s = Status.paid → r.paid_date = some d →
      findFee (set_status sigma r s today) r.id
        = some { r with status := s, paid_date := some d }) ∧
    (s ≠ Status.paid →
      findFee (set_status sigma r s today) r.id
        = some { r with status := s, paid_date := none }) ∧
    (∀ today2 : Int, ∀ r1 : FeeRec,
      findFee (set_status sigma r Status.paid today) r.id = some r1 →
      findFee (set_status (set_status sigma r Status.paid today) r1 Status.paid today2)
          r.id = some r1) := by
  have hsome : (sigma.fees.find? (fun x : FeeRec => x.id == r.id)).isSome = true := by
    have h : sigma.fees.find? (fun x : FeeRec => x.id == r.id) = some r := hmem
    rw [h]
    rfl
  refine ⟨?_, ?_, ?_, ?_⟩
  · intro hs hpd
    subst hs
    have hadj : adjustPaidDate { r with status := Status.paid } today
        = { r with status := Status.paid, paid_date := some today } := by
      unfold adjustPaidDate
      simp [hpd]
    have h := findFee_save sigma { r with status := Status.paid } today hsome
    rw [hadj] at h
    exact h
  · intro d hs hpd
    subst hs
    have hadj : adjustPaidDate { r with status := Status.paid } today
        = { r with status := Status.paid, paid_date := some d } := by
      unfold adjustPaidDate
      simp [hpd]
    have h := findFee_save sigma { r with status := Status.paid } today hsome
    rw [hadj] at h
    exact h
  · intro hs
    have hadj : adjustPaidDate { r with status := s } today
        = { r with status := s, paid_date := none } := by
      cases s with
      | paid => exact absurd rfl hs
      | unpaid => rfl
      | overdue => rfl
      | waived => rfl
    have h := findFee_save sigma { r with status := s } today hsome
    rw [hadj] at h
    exact h
  · intro today2 r1 h1
    have h := findFee_save sigma { r with status := Status.paid } today hsome
    have hr1 : r1 = adjustPaidDate { r with status := Status.paid } today :=
      (Option.some.inj (h.symm.trans h1)).symm
    have hr1status : r1.status = Status.paid := by
      rw [hr1]
      unfold adjustPaidDate
      by_cases hpd : r.paid_date = none
      · simp [hpd]
      · simp [hpd]
    have hr1pd : r1.paid_date ≠ none := by
      rw [hr1]
      unfold adjustPaidDate
      by_cases hpd : r.paid_date = none
      · simp [hpd]
      · simp [hpd]
    have hr1id : r1.id = r.id := by
      rw [hr1]
      exact adjustPaidDate_id { r with status := Status.paid } today
    have heta : { r1 with status := Status.paid } = r1 := by
      cases r1
      simp only at hr1status
      simp [hr1status]
    have hadj2 : adjustPaidDate { r1 with status := Status.paid } today2 = r1 := by
      rw [heta]
      unfold adjustPaidDate
      have h2 : (r1.paid_date == none) = false := by
        cases hpd : r1.paid_date with
        | none => exact absurd hpd hr1pd
        | some d => rfl
      simp [hr1status, h2]
    have hsome2 : ((set_status sigma r Status.paid today).fees.find?
        (fun x : FeeRec => x.id == r1.id)).isSome = true := by
      have hx : (set_status sigma r Status.paid today).fees.find?
          (fun x : FeeRec => x.id == r1.id) = some r1 := by
        rw [hr1id]
        exact h1
      rw [hx]
      rfl
    have hfin := findFee_save (set_status sigma r Status.paid today)
      { r1 with status := Status.paid } today2 hsome2
    rw [hadj2] at hfin
    rw [← hr1id]
    exact hfin

/-! ## Concrete scenarios for counterexamples and witnesses -/

def c1StudentA : StudentRec := { id := 1, parent := some 7, is_active := true }

def c1StudentB : StudentRec := { id := 2, parent := some 7, is_active := true }

def c1Profile : ProfileRec := { userId := 7, pending_amount := 0 }

def c1FeeA : FeeRec :=
  { id := 1, studentId := 1, month := "01/2026", fees := 100,
    status := Status.unpaid, due_date := 10, paid_date := none }

def c1FeeB : FeeRec :=
  { id := 2, studentId := 2, month := "01/2026", fees := 200,
    status := Status.unpaid, due_date := 10, paid_date := none }

def c1State : State :=
  { fees := [c1FeeA, c1FeeB], students := [c1StudentA, c1StudentB],
    profiles := [c1Profile] }

/-- C1 counterexample: guardian 7 has two students with outstanding
fees 100 and 200; a write on student 1's record leaves the guardian's
pending_amount at 100, the triggering student's own sum, not the
guardian-wide sum 300 that the claim asserts. -/
theorem C1_counterexample :
    (findProfile (set_status c1State c1FeeA Status.unpaid 50) 7).map
      (fun q : ProfileRec => q.pending_amount) = some 100 ∧
    guardianWideSum (set_status c1State c1FeeA Status.unpaid 50) 7 = 300 ∧
    (100 : Int) ≠ 300 := by
  refine ⟨by decide, by decide, by decide⟩

/-- C1 amended: after any completed fee-record write (save), the
guardian's pending_amount equals the sum of fees over the records,
with status unpaid or overdue, of the one student whose record was
written; records of the guardian's other students are not included. -/
theorem C1_amended_per_student_pending (sigma : State) (r : FeeRec) (today : Int)
    (st : StudentRec) (p : Nat) (pr : ProfileRec)
    (hst : findStudent sigma r.studentId = some st)
    (hp : st.parent = some p)
    (hpr : findProfile sigma p = some pr) :
    (findProfile (save sigma r today) p).map (fun q : ProfileRec => q.pending_amount)
      = some (pendingSum (save sigma r today) r.studentId) :=
  save_pending sigma r today st p pr hst hp hpr

theorem C1_amended_witness :
    findStudent c1State 1 = some c1StudentA ∧
    c1StudentA.parent = some 7 ∧
    findProfile c1State 7 = some c1Profile ∧
    (findProfile (save c1State c1FeeA 50) 7).map (fun q : ProfileRec => q.pending_amount)
      = some (pendingSum (save c1State c1FeeA 50) 1) :=
  ⟨rfl, rfl, rfl, C1_amended_per_student_pending c1State c1FeeA 50 c1StudentA 7 c1Profile rfl rfl rfl⟩

def c2Student : StudentRec := { id := 1, parent := none, is_active := false }

def c2FeeA : FeeRec :=
  { id := 1, studentId := 1, month := "01/2026", fees := 5000,
    status := Status.overdue, due_date := 10, paid_date := none }

def c2FeeB : FeeRec :=
  { id := 2, studentId := 1, month := "02/2026", fees := 5000,
    status := Status.overdue, due_date := 40, paid_date := none }

def c2State : State :=
  { fees := [c2FeeA, c2FeeB], students := [c2Student], profiles := [] }

theorem C2_witness :
    findStudent c2State 1 = some c2Student ∧
    (findStudent (set_status c2State c2FeeA Status.paid 50) 1).map
      (fun q : StudentRec => q.is_active)
      = some (decide (overdueCount (set_status c2State c2FeeA Status.paid 50) 1 < 2)) ∧
    (findStudent (set_status c2State c2FeeA Status.paid 50) 1).map
      (fun q : StudentRec => q.is_active) = some true :=
  ⟨rfl, C2_discontinuation_flag c2State c2FeeA Status.paid 50 c2Student rfl, by decide⟩

def c3Student : StudentRec := { id := 3, parent := some 9, is_active := false }

def c3Profile : ProfileRec := { userId := 9, pending_amount := 10000 }

def c3FeeA : FeeRec :=
  { id := 10, studentId := 3, month := "01/2026", fees := 5000,
    status := Status.overdue, due_date := 10, paid_date := none }

def c3FeeB : FeeRec :=
  { id := 11, studentId := 3, month := "02/2026", fees := 5000,
    status := Status.overdue, due_date := 40, paid_date := none }

def c3State : State :=
  { fees := [c3FeeA, c3FeeB], students := [c3Student], profiles := [c3Profile] }

theorem C3_witness :
    findStudent c3State 3 = some c3Student ∧
    c3Student.parent = some 9 ∧
    findProfile c3State 9 = some c3Profile ∧
    ((findProfile (set_status c3State c3FeeA Status.paid 60) 9).map
      (fun q : ProfileRec => q.pending_amount)
      = some (pendingSum (set_status c3State c3FeeA Status.paid 60) 3)) ∧
    pendingSum (set_status c3State c3FeeA Status.paid 60) 3 = 5000 :=
  ⟨rfl, rfl, rfl,
    C3_guardian_pending c3State c3FeeA Status.paid 60 c3Student 9 c3Profile rfl rfl rfl,
    by decide⟩

def c4Fee : FeeRec :=
  { id := 1, studentId := 1, month := "01/2026", fees := 100,
    status := Status.unpaid, due_date := 10, paid_date := none }

def c4State : State := { fees := [c4Fee], students := [], profiles := [] }

theorem C4_witness :
    findFee c4State 1 = some c4Fee ∧
    Status.paid = Status.paid ∧
    c4Fee.paid_date = none ∧
    findFee (set_status c4State c4Fee Status.paid 50) 1
      = some { c4Fee with status := Status.paid, paid_date := some 50 } :=
  ⟨rfl, rfl, rfl, (C4_paid_date_rules c4State c4Fee Status.paid 50 rfl).1 rfl rfl⟩

def c5Student : StudentRec := { id := 1, parent := some 7, is_active := true }

def c5Fee : FeeRec :=
  { id := 1, studentId := 1, month := "01/2026", fees := 100,
    status := Status.unpaid, due_date := 10, paid_date := none }

def c5State : State := { fees := [c5Fee], students := [c5Student], profiles := [] }

/-- C5: student 1 has a guardian whose profile row is missing, so the
pending recompute raises inside _update_parent_pending; the
catch-and-ignore wrapper swallows it and save returns normally with
the record written and profiles untouched — the error is not surfaced
to the caller (save's type has no error channel at all). -/
theorem C5_recompute_error_swallowed :
    updateParentPendingCore
      (putFee c5State (adjustPaidDate { c5Fee with status := Status.overdue } 50)) 1
      = Except.error () ∧
    set_status c5State c5Fee Status.overdue 50
      = { fees := [{ c5Fee with status := Status.overdue }],
          students := [{ c5Student with is_active := true }],
          profiles := [] } := by
  refine ⟨rfl, by decide⟩

/-! ## Claim theorems: roadmap topics -/

def c7Loop : PyTopic := { id := 5, title := "x", order := 0, parent := some 5 }

/-- C7: get_level has no cycle guard — on a topic that is its own
parent the `while parent:` loop never exits; in the fueled embedding,
no iteration bound whatsoever produces a result, refuting the claimed
visited-set guard. -/
theorem C7_get_level_diverges_on_cycle :
    ¬ GetLevelTerminates [c7Loop] c7Loop := by
  intro h
  obtain ⟨fuel, hf⟩ := h
  have key : ∀ f : Nat, getLevelF [c7Loop] f c7Loop = none := by
    intro f
    induction f with
    | zero => rfl
    | succ n ih =>
      have hp : c7Loop.parent.bind (findTopic [c7Loop]) = some c7Loop := rfl
      simp only [getLevelF, hp, ih, Option.map_none']
  rw [key fuel] at hf
  simp at hf

theorem insertByOrder_perm (t : PyTopic) (l : List PyTopic) :
    (insertByOrder t l).Perm (t :: l) := by
  induction l with
  | nil => exact List.Perm.refl _
  | cons x xs ih =>
    unfold insertByOrder
    by_cases h : t.order ≤ x.order
    · rw [if_pos h]
    · rw [if_neg h]
      exact (List.Perm.cons x ih).trans (List.Perm.swap t x xs)

theorem mem_insertByOrder {a t : PyTopic} {l : List PyTopic} :
    a ∈ insertByOrder t l ↔ a = t ∨ a ∈ l := by
  rw [(insertByOrder_perm t l).mem_iff]
  simp

theorem pairwise_insertByOrder (t : PyTopic) (l : List PyTopic)
    (h : l.Pairwise (fun a b => a.order ≤ b.order)) :
    (insertByOrder t l).Pairwise (fun a b => a.order ≤ b.order) := by
  induction l with
  | nil => simp [insertByOrder]
  | cons x xs ih =>
    rw [List.pairwise_cons] at h
    obtain ⟨hx, hxs⟩ := h
    unfold insertByOrder
    by_cases hle : t.order ≤ x.order
    · rw [if_pos hle]
      rw [List.pairwise_cons]
      refine ⟨?_, ?_⟩
      · intro b hb
        rcases List.mem_cons.mp hb with rfl | hb
        · exact hle
        · exact le_trans hle (hx b hb)
      · rw [List.pairwise_cons]
        exact ⟨hx, hxs⟩
    · rw [if_neg hle]
      rw [List.pairwise_cons]
      refine ⟨?_, ih hxs⟩
      intro b hb
      rcases mem_insertByOrder.mp hb with rfl | hb
      · exact le_of_lt (lt_of_not_ge hle)
      · exact hx b hb

theorem sortByOrder_perm (l : List PyTopic) : (sortByOrder l).Perm l := by
  induction l with
  | nil => exact List.Perm.refl _
  | cons x xs ih =>
    unfold sortByOrder
    exact (insertByOrder_perm x (sortByOrder xs)).trans (List.Perm.cons x ih)

theorem sortByOrder_pairwise (l : List PyTopic) :
    (sortByOrder l).Pairwise (fun a b => a.order ≤ b.order) := by
  induction l with
  | nil => simp [sortByOrder]
  | cons x xs ih =>
    unfold sortByOrder
    exact pairwise_insertByOrder x (sortByOrder xs) ih

theorem filter_insertByOrder (t : PyTopic) (l : List PyTopic) (v : Int) :
    (insertByOrder t l).filter (fun c => c.order == v)
      = if t.order = v then t :: l.filter (fun c => c.order == v)
        else l.filter (fun c => c.order == v) := by
  induction l with
  | nil =>
    by_cases h : t.order = v
    · simp [insertByOrder, List.filter_cons, h]
    · simp [insertByOrder, List.filter_cons, h]
  | cons x xs ih =>
    unfold insertByOrder
    by_cases hle : t.order ≤ x.order
    · rw [if_pos hle]
      by_cases htv : t.order = v
      · simp [List.filter_cons, htv]
      · simp [List.filter_cons, htv]
    · rw [if_neg hle]
      have hxt : x.order < t.order := lt_of_not_ge hle
      by_cases htv : t.order = v
      · have hxv : ¬ (x.order = v) := by omega
        simp [List.filter_cons, ih, htv, hxv]
      · simp [List.filter_cons, ih, htv]

theorem sortByOrder_filter (l : List PyTopic) (v : Int) :
    (sortByOrder l).filter (fun c => c.order == v)
      = l.filter (fun c => c.order == v) := by
  induction l with
  | nil => rfl
  | cons x xs ih =>
    unfold sortByOrder
    rw [filter_insertByOrder]
    by_cases h : x.order = v
    · rw [if_pos h, ih]
      simp [List.filter_cons, h]
    · rw [if_neg h, ih]
      simp [List.filter_cons, h]

def c9P : PyTopic := { id := 1, title := "p", order := 0, parent := none }

def c9B : PyTopic := { id := 2, title := "b", order := 1, parent := some 1 }

def c9A : PyTopic := { id := 3, title := "a", order := 1, parent := some 1 }

def c9Univ : List PyTopic := [c9P, c9B, c9A]

/-- Spec-side order for C9: ascending by the order key, ties broken
by title. -/
def SortedByOrderTitle (l : List PyTopic) : Prop :=
  l.Pairwise (fun a b => a.order < b.order ∨ (a.order = b.order ∧ a.title ≤ b.title))

/-- C9 counterexample: topic 1 has children titled "b" then "a" with
the same order key; get_children keeps the table order ["b", "a"], so
the result is not tie-broken by title as the claim asserts. -/
theorem C9_counterexample :
    get_children c9Univ c9P = [c9B, c9A] ∧
    c9B.order = c9A.order ∧
    ¬ SortedByOrderTitle (get_children c9Univ c9P) := by
  refine ⟨rfl, rfl, ?_⟩
  intro h
  have h2 : get_children c9Univ c9P = [c9B, c9A] := rfl
  rw [h2] at h
  unfold SortedByOrderTitle at h
  rw [List.pairwise_cons] at h
  have h3 := h.1 c9A (by simp)
  rcases h3 with h3 | h3
  · revert h3
    decide
  · have h4 : ("b" : String) ≤ "a" := h3.2
    rw [String.le_iff_toList_le] at h4
    revert h4
    decide

/-- C9 amended: get_children returns exactly the topic's direct
children sorted by the order key ascending; children with an equal
order key keep their relative table order (the explicit single-key
order_by('order') replaces Meta.ordering, so there is no title
tie-break). -/
theorem C9_children_sorted_stable (univ : List PyTopic) (t : PyTopic) :
    ((get_children univ t).Perm (univ.filter (fun c => c.parent == some t.id))) ∧
    (get_children univ t).Pairwise (fun a b => a.order ≤ b.order) ∧
    ∀ v : Int, (get_children univ t).filter (fun c => c.order == v)
      = (univ.filter (fun c => c.parent == some t.id)).filter (fun c => c.order == v) := by
  unfold get_children
  exact ⟨sortByOrder_perm _, sortByOrder_pairwise _, fun v => sortByOrder_filter _ v⟩

/-! ## C6 development: structure of the materialized forest -/

/-- The row a child edge of _build_topic_tree attaches to: the first
row whose id is the effective parent id. -/
def effParentTopic (S : List PyTopic) (t : PyTopic) : Option PyTopic :=
  match effParent S t with
  | none => none
  | some p => S.find? (fun x => x.id == p)

theorem effParent_find (S : List PyTopic) (t : PyTopic) (p : Nat)
    (h : effParent S t = some p) :
    ∃ tp, S.find? (fun x => x.id == p) = some tp ∧ tp ∈ S ∧ tp.id = p := by
  unfold effParent at h
  cases hpar : t.parent with
  | none => rw [hpar] at h; cases h
  | some q =>
    simp only [hpar] at h
    by_cases hcond : (decide (q ≠ 0) && S.any (fun x => x.id == q)) = true
    · rw [if_pos hcond] at h
      have hq : q = p := Option.some.inj h
      subst hq
      have hany : S.any (fun x => x.id == q) = true := by
        simp only [Bool.and_eq_true] at hcond
        exact hcond.2
      obtain ⟨x, hx, hxq⟩ := List.any_eq_true.mp hany
      cases hf : S.find? (fun x => x.id == q) with
      | none =>
        exfalso
        exact absurd hxq (by simpa using List.find?_eq_none.mp hf x hx)
      | some tp =>
        refine ⟨tp, rfl, List.mem_of_find?_eq_some hf, ?_⟩
        have := List.find?_some hf
        simpa using this
    · rw [if_neg hcond] at h
      cases h

theorem effParentTopic_spec (S : List PyTopic) (t : PyTopic) (p : Nat)
    (h : effParent S t = some p) :
    ∃ tp, effParentTopic S t = some tp ∧ tp ∈ S ∧ tp.id = p := by
  obtain ⟨tp, hf, hm, hid⟩ := effParent_find S t p h
  refine ⟨tp, ?_, hm, hid⟩
  unfold effParentTopic
  rw [h]
  exact hf

theorem id_inj (S : List PyTopic) (hnd : (S.map (fun t => t.id)).Nodup)
    {a b : PyTopic} (ha : a ∈ S) (hb : b ∈ S) (h : a.id = b.id) : a = b :=
  List.inj_on_of_nodup_map hnd ha hb h

theorem depthAux_root (S : List PyTopic) (t : PyTopic)
    (h : effParent S t = none) : ∀ f, depthAux S f t = some 0 := by
  intro f
  cases f with
  | zero => simp only [depthAux, h]
  | succ n => simp only [depthAux, h]

theorem depthAux_succ_eq (S : List PyTopic) (t tp : PyTopic) (p : Nat)
    (h : effParent S t = some p)
    (hf : S.find? (fun x => x.id == p) = some tp) (f : Nat) :
    depthAux S (f + 1) t = (depthAux S f tp).map (fun d => d + 1) := by
  simp only [depthAux, h, hf]

theorem depthAux_zero_some (S : List PyTopic) (t : PyTopic) (d : Nat)
    (h : depthAux S 0 t = some d) : effParent S t = none ∧ d = 0 := by
  unfold depthAux at h
  cases hp : effParent S t with
  | none =>
    rw [hp] at h
    exact ⟨rfl, (Option.some.inj h).symm⟩
  | some p =>
    rw [hp] at h
    cases h

theorem depthAux_some_zero (S : List PyTopic) (t : PyTopic) :
    ∀ f, depthAux S f t = some 0 → effParent S t = none := by
  intro f h
  cases f with
  | zero => exact (depthAux_zero_some S t 0 h).1
  | succ n =>
    cases hp : effParent S t with
    | none => rfl
    | some p =>
      exfalso
      cases hf : S.find? (fun x => x.id == p) with
      | none =>
        simp only [depthAux, hp, hf] at h
        cases h
      | some tp =>
        simp only [depthAux, hp, hf] at h
        cases hd : depthAux S n tp with
        | none => rw [hd] at h; cases h
        | some dd =>
          rw [hd] at h
          simp at h

theorem depthAux_le (S : List PyTopic) :
    ∀ f t d, depthAux S f t = some d → d ≤ f := by
  intro f
  induction f with
  | zero =>
    intro t d h
    have := (depthAux_zero_some S t d h).2
    omega
  | succ n ih =>
    intro t d h
    cases hp : effParent S t with
    | none =>
      rw [depthAux_root S t hp (n+1)] at h
      have := Option.some.inj h
      omega
    | some p =>
      cases hf : S.find? (fun x => x.id == p) with
      | none =>
        simp only [depthAux, hp, hf] at h
        cases h
      | some tp =>
        simp only [depthAux, hp, hf] at h
        cases hd : depthAux S n tp with
        | none => rw [hd] at h; cases h
        | some dd =>
          rw [hd] at h
          have h2 : dd + 1 = d := by simpa using h
          have := ih tp dd hd
          omega

theorem depthAux_mono (S : List PyTopic) :
    ∀ f g t d, depthAux S f t = some d → f ≤ g → depthAux S g t = some d := by
  intro f
  induction f with
  | zero =>
    intro g t d h _
    obtain ⟨hp, hd⟩ := depthAux_zero_some S t d h
    subst hd
    exact depthAux_root S t hp g
  | succ n ih =>
    intro g t d h hfg
    cases hp : effParent S t with
    | none =>
      rw [depthAux_root S t hp (n+1)] at h
      have := Option.some.inj h
      subst this
      exact depthAux_root S t hp g
    | some p =>
      cases hf : S.find? (fun x => x.id == p) with
      | none =>
        simp only [depthAux, hp, hf] at h
        cases h
      | some tp =>
        simp only [depthAux, hp, hf] at h
        cases hd : depthAux S n tp with
        | none => rw [hd] at h; cases h
        | some dd =>
          rw [hd] at h
          have h2 : dd + 1 = d := by simpa using h
          cases g with
          | zero => omega
          | succ g2 =>
            have hg2 : n ≤ g2 := by omega
            rw [depthAux_succ_eq S t tp p hp hf g2, ih g2 tp dd hd hg2]
            rw [← h2]
            rfl

theorem depth_parent (S : List PyTopic) (u tp : PyTopic) (p : Nat) (du : Nat)
    (hp : effParent S u = some p)
    (hf : S.find? (fun x => x.id == p) = some tp)
    (hu : depthOf S u = some du) :
    ∃ dp, du = dp + 1 ∧ depthOf S tp = some dp ∧
      depthAux S (S.length - 1) tp = some dp := by
  unfold depthOf at hu ⊢
  cases hSn : S.length with
  | zero =>
    rw [hSn] at hu
    obtain ⟨h1, _⟩ := depthAux_zero_some S u du hu
    rw [h1] at hp
    cases hp
  | succ m =>
    rw [hSn] at hu
    rw [depthAux_succ_eq S u tp p hp hf m] at hu
    cases hd : depthAux S m tp with
    | none => rw [hd] at hu; cases hu
    | some dp =>
      rw [hd] at hu
      have h2 : dp + 1 = du := by simpa using hu
      refine ⟨dp, by omega, ?_, ?_⟩
      · exact depthAux_mono S m (m+1) tp dp hd (Nat.le_succ m)
      · simpa using hd

theorem chainAux_cons (S : List PyTopic) (f : Nat) (t : PyTopic) :
    ∃ rest, chainAux S f t = t :: rest := by
  cases f with
  | zero => exact ⟨[], rfl⟩
  | succ n => exact ⟨_, rfl⟩

theorem self_mem_chainAux (S : List PyTopic) (f : Nat) (t : PyTopic) :
    t ∈ chainAux S f t := by
  obtain ⟨rest, h⟩ := chainAux_cons S f t
  rw [h]
  exact List.mem_cons_self t rest

theorem chainAux_root (S : List PyTopic) (t : PyTopic)
    (h : effParent S t = none) : ∀ f, chainAux S f t = [t] := by
  intro f
  cases f with
  | zero => rfl
  | succ n => simp only [chainAux, h]

theorem chainAux_succ_eq (S : List PyTopic) (t tp : PyTopic) (p : Nat)
    (h : effParent S t = some p)
    (hf : S.find? (fun x => x.id == p) = some tp) (f : Nat) :
    chainAux S (f + 1) t = t :: chainAux S f tp := by
  simp only [chainAux, h, hf]

theorem chain_mem_S (S : List PyTopic) :
    ∀ f t, t ∈ S → ∀ u ∈ chainAux S f t, u ∈ S := by
  intro f
  induction f with
  | zero =>
    intro t ht u hu
    simp only [chainAux, List.mem_singleton] at hu
    rw [hu]
    exact ht
  | succ n ih =>
    intro t ht u hu
    cases hp : effParent S t with
    | none =>
      rw [chainAux_root S t hp (n+1)] at hu
      simp only [List.mem_singleton] at hu
      rw [hu]
      exact ht
    | some p =>
      cases hf : S.find? (fun x => x.id == p) with
      | none =>
        simp only [chainAux, hp, hf] at hu
        simp only [List.mem_singleton] at hu
        rw [hu]
        exact ht
      | some tp =>
        rw [chainAux_succ_eq S t tp p hp hf n] at hu
        rcases List.mem_cons.mp hu with rfl | hu2
        · exact ht
        · exact ih tp (List.mem_of_find?_eq_some hf) u hu2

theorem chainAux_stable (S : List PyTopic) :
    ∀ d u f g, depthAux S f u = some d → d ≤ f → d ≤ g →
      chainAux S f u = chainAux S g u := by
  intro d
  induction d with
  | zero =>
    intro u f g h _ _
    have hp : effParent S u = none := depthAux_some_zero S u f h
    rw [chainAux_root S u hp f, chainAux_root S u hp g]
  | succ d2 ih =>
    intro u f g h hdf hdg
    cases f with
    | zero => omega
    | succ f2 =>
      cases g with
      | zero => omega
      | succ g2 =>
        cases hp : effParent S u with
        | none =>
          rw [depthAux_root S u hp (f2+1)] at h
          have := Option.some.inj h
          omega
        | some p =>
          cases hf : S.find? (fun x => x.id == p) with
          | none =>
            simp only [depthAux, hp, hf] at h
            cases h
          | some tp =>
            rw [depthAux_succ_eq S u tp p hp hf f2] at h
            cases hd : depthAux S f2 tp with
            | none => rw [hd] at h; cases h
            | some dd =>
              rw [hd] at h
              have h2 : dd + 1 = d2 + 1 := by simpa using h
              have hdd : dd = d2 := by omega
              subst hdd
              rw [chainAux_succ_eq S u tp p hp hf f2,
                chainAux_succ_eq S u tp p hp hf g2]
              have hle := depthAux_le S f2 tp dd hd
              rw [ih tp f2 g2 hd hle (by omega)]

theorem chain_decomp (S : List PyTopic) (u tp : PyTopic) (p : Nat) (du : Nat)
    (hp : effParent S u = some p)
    (hf : S.find? (fun x => x.id == p) = some tp)
    (hu : depthOf S u = some du) :
    chainAux S S.length u = u :: chainAux S S.length tp := by
  obtain ⟨dp, hdu, hdtp, hdm⟩ := depth_parent S u tp p du hp hf hu
  unfold depthOf at hu
  cases hSn : S.length with
  | zero =>
    exfalso
    rw [hSn] at hu
    obtain ⟨h1, _⟩ := depthAux_zero_some S u du hu
    rw [h1] at hp
    cases hp
  | succ m =>
    rw [chainAux_succ_eq S u tp p hp hf m]
    have hdm2 : depthAux S m tp = some dp := by
      rw [hSn] at hdm
      simpa using hdm
    have hle := depthAux_le S m tp dp hdm2
    rw [chainAux_stable S dp tp m (m+1) hdm2 hle (by omega)]

theorem chainAux_length (S : List PyTopic) :
    ∀ f t d, depthAux S f t = some d → (chainAux S f t).length = d + 1 := by
  intro f
  induction f with
  | zero =>
    intro t d h
    obtain ⟨hp, hd⟩ := depthAux_zero_some S t d h
    subst hd
    rfl
  | succ n ih =>
    intro t d h
    cases hp : effParent S t with
    | none =>
      rw [depthAux_root S t hp (n+1)] at h
      have hd : d = 0 := (Option.some.inj h).symm
      subst hd
      rw [chainAux_root S t hp (n+1)]
      rfl
    | some p =>
      cases hf : S.find? (fun x => x.id == p) with
      | none =>
        simp only [depthAux, hp, hf] at h
        cases h
      | some tp =>
        rw [depthAux_succ_eq S t tp p hp hf n] at h
        cases hd : depthAux S n tp with
        | none => rw [hd] at h; cases h
        | some dd =>
          rw [hd] at h
          have h2 : dd + 1 = d := by simpa using h
          rw [chainAux_succ_eq S t tp p hp hf n]
          simp only [List.length_cons, ih tp dd hd]
          omega

theorem chain_depth_le (S : List PyTopic) :
    ∀ du u, depthOf S u = some du →
      ∀ x ∈ chainAux S S.length u, ∃ dx, depthOf S x = some dx ∧ dx ≤ du := by
  intro du
  induction du with
  | zero =>
    intro u hdu x hx
    have hp : effParent S u = none := depthAux_some_zero S u S.length hdu
    rw [chainAux_root S u hp S.length] at hx
    simp only [List.mem_singleton] at hx
    subst hx
    exact ⟨0, hdu, le_refl 0⟩
  | succ d2 ih =>
    intro u hdu x hx
    cases hp : effParent S u with
    | none =>
      have h0 : depthOf S u = some 0 := depthAux_root S u hp S.length
      rw [hdu] at h0
      have := Option.some.inj h0
      omega
    | some p =>
      obtain ⟨tp, hf, htpS, htpid⟩ := effParent_find S u p hp
      obtain ⟨dp, hdu2, hdtp, _⟩ := depth_parent S u tp p (d2+1) hp hf hdu
      have hdp : dp = d2 := by omega
      rw [hdp] at hdtp
      rw [chain_decomp S u tp p (d2+1) hp hf hdu] at hx
      rcases List.mem_cons.mp hx with rfl | hx2
      · exact ⟨d2+1, hdu, le_refl _⟩
      · obtain ⟨dx, hdx, hle⟩ := ih tp hdtp x hx2
        exact ⟨dx, hdx, by omega⟩

theorem chain_nodup (S : List PyTopic) :
    ∀ du u, depthOf S u = some du → (chainAux S S.length u).Nodup := by
  intro du
  induction du with
  | zero =>
    intro u hdu
    have hp : effParent S u = none := depthAux_some_zero S u S.length hdu
    rw [chainAux_root S u hp S.length]
    exact List.nodup_singleton u
  | succ d2 ih =>
    intro u hdu
    cases hp : effParent S u with
    | none =>
      have h0 : depthOf S u = some 0 := depthAux_root S u hp S.length
      rw [hdu] at h0
      have := Option.some.inj h0
      omega
    | some p =>
      obtain ⟨tp, hf, htpS, htpid⟩ := effParent_find S u p hp
      obtain ⟨dp, hdu2, hdtp, _⟩ := depth_parent S u tp p (d2+1) hp hf hdu
      have hdp : dp = d2 := by omega
      rw [hdp] at hdtp
      rw [chain_decomp S u tp p (d2+1) hp hf hdu]
      rw [List.nodup_cons]
      refine ⟨?_, ih tp hdtp⟩
      intro hmem
      obtain ⟨dx, hdx, hle⟩ := chain_depth_le S d2 tp hdtp u hmem
      rw [hdu] at hdx
      have := Option.some.inj hdx
      omega

theorem depth_lt_length (S : List PyTopic) (t : PyTopic) (d : Nat)
    (ht : t ∈ S) (hd : depthOf S t = some d) : d < S.length := by
  have hlen := chainAux_length S S.length t d hd
  have hnodup := chain_nodup S d t hd
  have hsub : chainAux S S.length t ⊆ S := fun x hx => chain_mem_S S S.length t ht x hx
  have := (List.subperm_of_subset hnodup hsub).length_le
  omega

theorem inSubtree_self (S : List PyTopic) (u : PyTopic) : InSubtree S u u :=
  self_mem_chainAux S S.length u

theorem inSubtree_mem (S : List PyTopic) (t u : PyTopic) (hu : u ∈ S)
    (h : InSubtree S t u) : t ∈ S :=
  chain_mem_S S S.length u hu t h

theorem inSubtree_root_iff (S : List PyTopic) (u t : PyTopic)
    (hroot : effParent S u = none) : InSubtree S t u ↔ t = u := by
  unfold InSubtree
  rw [chainAux_root S u hroot S.length]
  simp

theorem inSubtree_step_iff (S : List PyTopic) (u tp t : PyTopic) (p du : Nat)
    (hp : effParent S u = some p)
    (hf : S.find? (fun x => x.id == p) = some tp)
    (hdu : depthOf S u = some du) :
    InSubtree S t u ↔ t = u ∨ InSubtree S t tp := by
  unfold InSubtree
  rw [chain_decomp S u tp p du hp hf hdu]
  simp [List.mem_cons]

theorem inSubtree_depth_le (S : List PyTopic) (t u : PyTopic) (dt du : Nat)
    (hdu : depthOf S u = some du) (hdt : depthOf S t = some dt)
    (h : InSubtree S t u) : dt ≤ du := by
  obtain ⟨dx, hdx, hle⟩ := chain_depth_le S du u hdu t h
  rw [hdt] at hdx
  have := Option.some.inj hdx
  omega

theorem mem_childrenOf (S : List PyTopic) (i : Nat) (c : PyTopic) :
    c ∈ childrenOf S i ↔ c ∈ S ∧ effParent S c = some i := by
  unfold childrenOf
  rw [List.mem_filter]
  simp [beq_iff_eq]

theorem mem_treeRoots (S : List PyTopic) (r : PyTopic) :
    r ∈ treeRoots S ↔ r ∈ S ∧ effParent S r = none := by
  unfold treeRoots
  rw [List.mem_filter]
  simp [beq_iff_eq]

theorem find?_of_parent (S : List PyTopic)
    (hnd : (S.map (fun t => t.id)).Nodup) (c t : PyTopic) (ht : t ∈ S)
    (hcp : effParent S c = some t.id) :
    S.find? (fun x => x.id == t.id) = some t := by
  obtain ⟨tp, hf, htpS, htpid⟩ := effParent_find S c t.id hcp
  rw [hf]
  rw [id_inj S hnd htpS ht htpid]

theorem depth_child (S : List PyTopic) (hnd : (S.map (fun t => t.id)).Nodup)
    (hac : AcyclicTopics S) (t c : PyTopic) (d : Nat)
    (ht : t ∈ S) (hc : c ∈ childrenOf S t.id) (hdt : depthOf S t = some d) :
    depthOf S c = some (d + 1) := by
  obtain ⟨hcS, hcp⟩ := (mem_childrenOf S t.id c).mp hc
  obtain ⟨dc, hdc⟩ := Option.isSome_iff_exists.mp (hac c hcS)
  have hfind : S.find? (fun x => x.id == t.id) = some t :=
    find?_of_parent S hnd c t ht hcp
  obtain ⟨dp, hdceq, hdtp, _⟩ := depth_parent S c t t.id dc hcp hfind hdc
  rw [hdt] at hdtp
  have hdp : dp = d := (Option.some.inj hdtp).symm
  subst hdp
  rw [hdc, hdceq]

theorem countP_eq_count_of_unique (l : List PyTopic) (p : PyTopic → Bool) (u : PyTopic)
    (h : ∀ x ∈ l, p x = true ↔ x = u) : l.countP p = l.count u := by
  induction l with
  | nil => rfl
  | cons x xs ih =>
    rw [List.countP_cons, List.count_cons,
      ih (fun y hy => h y (List.mem_cons_of_mem x hy))]
    by_cases hx : x = u
    · have hpx := (h x (List.mem_cons_self x xs)).mpr hx
      rw [hx] at hpx
      simp [hpx, hx]
    · have hpx : ¬ (p x = true) := fun hp => hx ((h x (List.mem_cons_self x xs)).mp hp)
      simp [hpx, hx]

theorem sum_map_ite_eq_countP (l : List PyTopic) (P : PyTopic → Prop)
    [DecidablePred P] :
    (l.map (fun c => if P c then (1 : Nat) else 0)).sum
      = l.countP (fun c => decide (P c)) := by
  induction l with
  | nil => rfl
  | cons x xs ih =>
    simp only [List.map_cons, List.sum_cons, List.countP_cons, ih]
    by_cases hx : P x
    · simp [hx, Nat.add_comm]
    · simp [hx]

/-- Among the children of any node t other than u, exactly one (resp.
none) contains u in its subtree, according to whether t itself does. -/
theorem children_subtree_count (S : List PyTopic)
    (hnd : (S.map (fun t => t.id)).Nodup) (hac : AcyclicTopics S) :
    ∀ du u, u ∈ S → depthOf S u = some du → ∀ t, t ∈ S → t ≠ u →
      (childrenOf S t.id).countP (fun c => decide (InSubtree S c u))
        = if InSubtree S t u then 1 else 0 := by
  intro du
  induction du with
  | zero =>
    intro u hu hdu t ht htu
    have hroot : effParent S u = none := depthAux_some_zero S u S.length hdu
    have hin : ∀ x, InSubtree S x u ↔ x = u := fun x => inSubtree_root_iff S u x hroot
    rw [if_neg (fun hh => htu ((hin t).mp hh))]
    apply List.countP_eq_zero.mpr
    intro c hc
    simp only [decide_eq_true_iff]
    intro hcin
    have hcu : c = u := (hin c).mp hcin
    have h2 := ((mem_childrenOf S t.id c).mp hc).2
    rw [hcu, hroot] at h2
    cases h2
  | succ d2 ih =>
    intro u hu hdu t ht htu
    have hpex : ∃ p, effParent S u = some p := by
      cases hp : effParent S u with
      | none =>
        exfalso
        have h0 : depthOf S u = some 0 := depthAux_root S u hp S.length
        rw [hdu] at h0
        have := Option.some.inj h0
        omega
      | some p => exact ⟨p, rfl⟩
    obtain ⟨p, hp⟩ := hpex
    obtain ⟨tp, hf, htpS, htpid⟩ := effParent_find S u p hp
    obtain ⟨dp, hdu2, hdtp, _⟩ := depth_parent S u tp p (d2+1) hp hf hdu
    have hdp : dp = d2 := by omega
    rw [hdp] at hdtp
    have hin : ∀ x, InSubtree S x u ↔ x = u ∨ InSubtree S x tp :=
      fun x => inSubtree_step_iff S u tp x p (d2+1) hp hf hdu
    by_cases htw : t = tp
    · have htin : InSubtree S t u := (hin t).mpr (Or.inr (htw ▸ inSubtree_self S tp))
      rw [if_pos htin]
      have hcu : u ∈ childrenOf S t.id := by
        rw [mem_childrenOf]
        refine ⟨hu, ?_⟩
        rw [hp, htw, htpid]
      have hNd : (childrenOf S t.id).Nodup :=
        List.Nodup.filter _ (List.Nodup.of_map _ hnd)
      rw [countP_eq_count_of_unique (childrenOf S t.id) _ u ?huniq]
      · exact List.count_eq_one_of_mem hNd hcu
      case huniq =>
        intro c hc
        simp only [decide_eq_true_iff]
        constructor
        · intro hcin
          rcases (hin c).mp hcin with h | hcin2
          · exact h
          · exfalso
            have hdc : depthOf S c = some (d2+1) := by
              rw [← htw] at hdtp
              exact depth_child S hnd hac t c d2 ht hc hdtp
            have hle := inSubtree_depth_le S c tp (d2+1) d2 hdtp hdc hcin2
            omega
        · intro he
          rw [he]
          exact (hin u).mpr (Or.inl rfl)
    · have hcongr : (childrenOf S t.id).countP (fun c => decide (InSubtree S c u))
          = (childrenOf S t.id).countP (fun c => decide (InSubtree S c tp)) := by
        apply List.countP_congr
        intro c hc
        simp only [decide_eq_true_iff]
        constructor
        · intro hcin
          rcases (hin c).mp hcin with rfl | h2
          · exfalso
            have h3 := ((mem_childrenOf S t.id c).mp hc).2
            rw [hp] at h3
            have hpt : p = t.id := Option.some.inj h3
            apply htw
            exact id_inj S hnd ht htpS (by rw [htpid, hpt])
          · exact h2
        · intro h2
          exact (hin c).mpr (Or.inr h2)
      rw [hcongr, ih tp htpS hdtp t ht htw]
      have hiff : InSubtree S t u ↔ InSubtree S t tp := by
        rw [hin t]
        exact ⟨fun h => h.resolve_left htu, Or.inr⟩
      by_cases hq : InSubtree S t tp
      · rw [if_pos hq, if_pos (hiff.mpr hq)]
      · rw [if_neg hq, if_neg (fun hh => hq (hiff.mp hh))]

/-- Every topic lies in the subtree of exactly one promoted root. -/
theorem roots_subtree_count (S : List PyTopic)
    (hnd : (S.map (fun t => t.id)).Nodup) (hac : AcyclicTopics S) :
    ∀ du u, u ∈ S → depthOf S u = some du →
      (treeRoots S).countP (fun r => decide (InSubtree S r u)) = 1 := by
  intro du
  induction du with
  | zero =>
    intro u hu hdu
    have hroot : effParent S u = none := depthAux_some_zero S u S.length hdu
    have hin : ∀ x, InSubtree S x u ↔ x = u := fun x => inSubtree_root_iff S u x hroot
    rw [countP_eq_count_of_unique (treeRoots S) _ u ?huniq]
    · apply List.count_eq_one_of_mem (List.Nodup.filter _ (List.Nodup.of_map _ hnd))
      exact (mem_treeRoots S u).mpr ⟨hu, hroot⟩
    case huniq =>
      intro c hc
      simp only [decide_eq_true_iff]
      exact hin c
  | succ d2 ih =>
    intro u hu hdu
    have hpex : ∃ p, effParent S u = some p := by
      cases hp : effParent S u with
      | none =>
        exfalso
        have h0 : depthOf S u = some 0 := depthAux_root S u hp S.length
        rw [hdu] at h0
        have := Option.some.inj h0
        omega
      | some p => exact ⟨p, rfl⟩
    obtain ⟨p, hp⟩ := hpex
    obtain ⟨tp, hf, htpS, htpid⟩ := effParent_find S u p hp
    obtain ⟨dp, hdu2, hdtp, _⟩ := depth_parent S u tp p (d2+1) hp hf hdu
    have hdp : dp = d2 := by omega
    rw [hdp] at hdtp
    have hin : ∀ x, InSubtree S x u ↔ x = u ∨ InSubtree S x tp :=
      fun x => inSubtree_step_iff S u tp x p (d2+1) hp hf hdu
    have hcongr : (treeRoots S).countP (fun r => decide (InSubtree S r u))
        = (treeRoots S).countP (fun r => decide (InSubtree S r tp)) := by
      apply List.countP_congr
      intro r hr
      simp only [decide_eq_true_iff]
      constructor
      · intro hrin
        rcases (hin r).mp hrin with rfl | h2
        · exfalso
          have h3 := ((mem_treeRoots S r).mp hr).2
          rw [h3] at hp
          cases hp
        · exact h2
      · intro h2
        exact (hin r).mpr (Or.inr h2)
    rw [hcongr]
    exact ih tp htpS hdtp

theorem flattenForest_eq_flatMap (ns : List TNode) :
    flattenForest ns = ns.flatMap flattenNode := by
  induction ns with
  | nil => rfl
  | cons n ns ih =>
    simp only [flattenForest, List.flatMap_cons, ih]

theorem headId_buildNode (S : List PyTopic) (f : Nat) (t : PyTopic) :
    headId (buildNode S f t) = t.id := by
  cases f with
  | zero => rfl
  | succ n => rfl

theorem flattenNode_build_zero (S : List PyTopic) (t : PyTopic) :
    flattenNode (buildNode S 0 t) = [t.id] := by
  simp only [buildNode, flattenNode, flattenForest]

theorem flattenNode_build_succ (S : List PyTopic) (f : Nat) (t : PyTopic) :
    flattenNode (buildNode S (f+1) t)
      = t.id :: (childrenOf S t.id).flatMap (fun c => flattenNode (buildNode S f c)) := by
  have h1 : buildNode S (f+1) t
      = TNode.node t.id t.title ((childrenOf S t.id).map (fun c => buildNode S f c)) := by
    simp only [buildNode]
  rw [h1]
  simp only [flattenNode]
  rw [flattenForest_eq_flatMap, List.flatMap_map]

/-- Each node id occurs in the flattened subtree of t exactly once if
t's subtree contains it, never otherwise. -/
theorem flatten_count (S : List PyTopic)
    (hnd : (S.map (fun t => t.id)).Nodup) (hac : AcyclicTopics S) :
    ∀ f t d, t ∈ S → depthOf S t = some d → S.length ≤ f + d →
      ∀ u, u ∈ S →
        (flattenNode (buildNode S f t)).count u.id
          = if InSubtree S t u then 1 else 0 := by
  intro f
  induction f with
  | zero =>
    intro t d ht hd hfd u hu
    exfalso
    have := depth_lt_length S t d ht hd
    omega
  | succ n ih =>
    intro t d ht hd hfd u hu
    rw [flattenNode_build_succ S n t]
    rw [List.count_cons, List.count_flatMap]
    have hmapc : (childrenOf S t.id).map
          (List.count u.id ∘ fun c => flattenNode (buildNode S n c))
        = (childrenOf S t.id).map (fun c => if InSubtree S c u then 1 else 0) := by
      apply List.map_congr_left
      intro c hc
      have hcS := ((mem_childrenOf S t.id c).mp hc).1
      have hdc := depth_child S hnd hac t c d ht hc hd
      exact ih c (d+1) hcS hdc (by omega) u hu
    rw [hmapc, sum_map_ite_eq_countP]
    by_cases htu : t = u
    · have hbeq : (t.id == u.id) = true := beq_iff_eq.mpr (by rw [htu])
      have hzero : (childrenOf S t.id).countP (fun c => decide (InSubtree S c u)) = 0 := by
        apply List.countP_eq_zero.mpr
        intro c hc
        simp only [decide_eq_true_iff]
        intro hcin
        have hdc := depth_child S hnd hac t c d ht hc hd
        have hdu2 : depthOf S u = some d := by rw [← htu]; exact hd
        have hle := inSubtree_depth_le S c u (d+1) d hdu2 hdc hcin
        omega
      have hsub : InSubtree S t u := by
        rw [htu]
        exact inSubtree_self S u
      rw [hzero, hbeq, if_pos hsub]
      simp
    · have hbeq : (t.id == u.id) = false := by
        apply beq_eq_false_iff_ne.mpr
        intro hh
        exact htu (id_inj S hnd ht hu hh)
      obtain ⟨du, hdu⟩ := Option.isSome_iff_exists.mp (hac u hu)
      rw [hbeq, children_subtree_count S hnd hac du u hu hdu t ht htu]
      simp

theorem flatten_ids (S : List PyTopic) :
    ∀ f t, t ∈ S → ∀ y ∈ flattenNode (buildNode S f t), y ∈ S.map (fun x => x.id) := by
  intro f
  induction f with
  | zero =>
    intro t ht y hy
    rw [flattenNode_build_zero] at hy
    simp only [List.mem_singleton] at hy
    rw [hy]
    exact List.mem_map_of_mem _ ht
  | succ n ih =>
    intro t ht y hy
    rw [flattenNode_build_succ] at hy
    rcases List.mem_cons.mp hy with rfl | hy2
    · exact List.mem_map_of_mem _ ht
    · obtain ⟨c, hc, hyc⟩ := List.mem_flatMap.mp hy2
      exact ih c ((mem_childrenOf S t.id c).mp hc).1 y hyc

theorem flattenForest_build (S : List PyTopic) :
    flattenForest (buildTopicTree S)
      = (treeRoots S).flatMap (fun r => flattenNode (buildNode S S.length r)) := by
  unfold buildTopicTree
  rw [flattenForest_eq_flatMap, List.flatMap_map]

theorem flatten_forest_count_one (S : List PyTopic)
    (hnd : (S.map (fun t => t.id)).Nodup) (hac : AcyclicTopics S)
    (u : PyTopic) (hu : u ∈ S) :
    (flattenForest (buildTopicTree S)).count u.id = 1 := by
  rw [flattenForest_build, List.count_flatMap]
  have hmap : (treeRoots S).map
        (List.count u.id ∘ fun r => flattenNode (buildNode S S.length r))
      = (treeRoots S).map (fun r => if InSubtree S r u then 1 else 0) := by
    apply List.map_congr_left
    intro r hr
    obtain ⟨hrS, hrroot⟩ := (mem_treeRoots S r).mp hr
    exact flatten_count S hnd hac S.length r 0 hrS
      (depthAux_root S r hrroot S.length) (by omega) u hu
  rw [hmap, sum_map_ite_eq_countP]
  obtain ⟨du, hdu⟩ := Option.isSome_iff_exists.mp (hac u hu)
  exact roots_subtree_count S hnd hac du u hu hdu

theorem flatten_forest_perm (S : List PyTopic)
    (hnd : (S.map (fun t => t.id)).Nodup) (hac : AcyclicTopics S) :
    (flattenForest (buildTopicTree S)).Perm (S.map (fun t => t.id)) := by
  rw [List.perm_iff_count]
  intro a
  by_cases ha : a ∈ S.map (fun t => t.id)
  · obtain ⟨u, hu, hui⟩ := List.mem_map.mp ha
    have ha2 : u.id ∈ S.map (fun t => t.id) := hui ▸ ha
    rw [← hui, flatten_forest_count_one S hnd hac u hu,
      List.count_eq_one_of_mem hnd ha2]
  · rw [List.count_eq_zero.mpr ha]
    apply List.count_eq_zero.mpr
    intro hmem
    rw [flattenForest_build] at hmem
    obtain ⟨r, hr, har⟩ := List.mem_flatMap.mp hmem
    exact ha (flatten_ids S S.length r ((mem_treeRoots S r).mp hr).1 a har)

theorem edgesForest_eq_flatMap (ns : List TNode) :
    edgesForest ns = ns.flatMap edgesNode := by
  induction ns with
  | nil => rfl
  | cons n ns ih =>
    simp only [edgesForest, List.flatMap_cons, ih]

theorem edgesNode_build_zero (S : List PyTopic) (t : PyTopic) :
    edgesNode (buildNode S 0 t) = [] := by
  simp only [buildNode, edgesNode, edgesForest]
  rfl

theorem edgesNode_build_succ (S : List PyTopic) (f : Nat) (t : PyTopic) :
    edgesNode (buildNode S (f+1) t)
      = (childrenOf S t.id).map (fun c => (t.id, c.id))
        ++ (childrenOf S t.id).flatMap (fun c => edgesNode (buildNode S f c)) := by
  have h1 : buildNode S (f+1) t
      = TNode.node t.id t.title ((childrenOf S t.id).map (fun c => buildNode S f c)) := by
    simp only [buildNode]
  rw [h1]
  simp only [edgesNode]
  rw [edgesForest_eq_flatMap, List.flatMap_map, List.map_map]
  congr 1
  apply List.map_congr_left
  intro c hc
  simp [headId_buildNode]

theorem edgesForest_build (S : List PyTopic) :
    edgesForest (buildTopicTree S)
      = (treeRoots S).flatMap (fun r => edgesNode (buildNode S S.length r)) := by
  unfold buildTopicTree
  rw [edgesForest_eq_flatMap, List.flatMap_map]

theorem edges_sound (S : List PyTopic) :
    ∀ f t, t ∈ S → ∀ e ∈ edgesNode (buildNode S f t),
      ∃ c ∈ S, c.id = e.2 ∧ effParent S c = some e.1 := by
  intro f
  induction f with
  | zero =>
    intro t ht e he
    rw [edgesNode_build_zero] at he
    cases he
  | succ n ih =>
    intro t ht e he
    rw [edgesNode_build_succ] at he
    rcases List.mem_append.mp he with h1 | h2
    · obtain ⟨c, hc, rfl⟩ := List.mem_map.mp h1
      obtain ⟨hcS, hcp⟩ := (mem_childrenOf S t.id c).mp hc
      exact ⟨c, hcS, rfl, hcp⟩
    · obtain ⟨c, hc, hce⟩ := List.mem_flatMap.mp h2
      exact ih c ((mem_childrenOf S t.id c).mp hc).1 e hce

theorem edges_complete_aux (S : List PyTopic)
    (hnd : (S.map (fun t => t.id)).Nodup) (hac : AcyclicTopics S)
    (c w : PyTopic) (hw : w ∈ S) (hcS : c ∈ S)
    (hcp : effParent S c = some w.id) :
    ∀ f x dx, x ∈ S → depthOf S x = some dx → S.length ≤ f + dx →
      InSubtree S x w → (w.id, c.id) ∈ edgesNode (buildNode S f x) := by
  intro f
  induction f with
  | zero =>
    intro x dx hx hdx hfd _
    exfalso
    have := depth_lt_length S x dx hx hdx
    omega
  | succ n ih =>
    intro x dx hx hdx hfd hxw
    rw [edgesNode_build_succ, List.mem_append]
    by_cases hxw2 : x = w
    · left
      apply List.mem_map.mpr
      refine ⟨c, ?_, ?_⟩
      · rw [mem_childrenOf]
        exact ⟨hcS, by rw [hcp, hxw2]⟩
      · rw [hxw2]
    · right
      obtain ⟨dw, hdw⟩ := Option.isSome_iff_exists.mp (hac w hw)
      have hcnt := children_subtree_count S hnd hac dw w hw hdw x hx hxw2
      rw [if_pos hxw] at hcnt
      have hpos : 0 < (childrenOf S x.id).countP (fun ch => decide (InSubtree S ch w)) := by
        omega
      obtain ⟨ch, hch, hchw⟩ := List.countP_pos_iff.mp hpos
      simp only [decide_eq_true_iff] at hchw
      apply List.mem_flatMap.mpr
      refine ⟨ch, hch, ?_⟩
      have hchS := ((mem_childrenOf S x.id ch).mp hch).1
      have hdch := depth_child S hnd hac x ch dx hx hch hdx
      exact ih ch (dx+1) hchS hdch (by omega) hchw

theorem edges_complete (S : List PyTopic)
    (hnd : (S.map (fun t => t.id)).Nodup) (hac : AcyclicTopics S)
    (c : PyTopic) (pid : Nat) (hcS : c ∈ S)
    (hcp : effParent S c = some pid) :
    (pid, c.id) ∈ edgesForest (buildTopicTree S) := by
  obtain ⟨w, hfw, hwS, hwid⟩ := effParent_find S c pid hcp
  have hcpw : effParent S c = some w.id := by rw [hwid]; exact hcp
  obtain ⟨dw, hdw⟩ := Option.isSome_iff_exists.mp (hac w hwS)
  have hroot := roots_subtree_count S hnd hac dw w hwS hdw
  have hpos : 0 < (treeRoots S).countP (fun r => decide (InSubtree S r w)) := by omega
  obtain ⟨r, hr, hrw⟩ := List.countP_pos_iff.mp hpos
  simp only [decide_eq_true_iff] at hrw
  obtain ⟨hrS, hrroot⟩ := (mem_treeRoots S r).mp hr
  have hmem := edges_complete_aux S hnd hac c w hwS hcS hcpw S.length r 0 hrS
    (depthAux_root S r hrroot S.length) (by omega) hrw
  rw [edgesForest_build, ← hwid]
  exact List.mem_flatMap.mpr ⟨r, hr, hmem⟩

/-- C6: for an acyclic topic collection with distinct ids,
materializing the forest with _build_topic_tree and flattening it
reproduces the original topic count exactly; every in-set parent/child
edge appears in the materialized forest (orphans are promoted to
roots), and every emitted edge is an original in-set edge. -/
theorem C6_tree_round_trip (S : List PyTopic)
    (hnd : (S.map (fun t => t.id)).Nodup)
    (hac : AcyclicTopics S) :
    (flattenForest (buildTopicTree S)).length = S.length ∧
    (∀ c ∈ S, ∀ pid, effParent S c = some pid →
      (pid, c.id) ∈ edgesForest (buildTopicTree S)) ∧
    (∀ e ∈ edgesForest (buildTopicTree S),
      ∃ c ∈ S, c.id = e.2 ∧ effParent S c = some e.1) := by
  refine ⟨?_, ?_, ?_⟩
  · rw [(flatten_forest_perm S hnd hac).length_eq, List.length_map]
  · intro c hc pid hp
    exact edges_complete S hnd hac c pid hc hp
  · intro e he
    rw [edgesForest_build] at he
    obtain ⟨r, hr, hre⟩ := List.mem_flatMap.mp he
    exact edges_sound S S.length r ((mem_treeRoots S r).mp hr).1 e hre

def c6Root : PyTopic := { id := 1, title := "r", order := 0, parent := none }

def c6Child : PyTopic := { id := 2, title := "c", order := 0, parent := some 1 }

def c6Grand : PyTopic := { id := 3, title := "g", order := 0, parent := some 2 }

def c6Orphan : PyTopic := { id := 4, title := "o", order := 0, parent := some 9 }

def c6Forest : List PyTopic := [c6Root, c6Child, c6Grand, c6Orphan]

theorem C6_witness :
    ((c6Forest.map (fun t => t.id)).Nodup ∧ AcyclicTopics c6Forest) ∧
    (flattenForest (buildTopicTree c6Forest)).length = c6Forest.length ∧
    (1, 2) ∈ edgesForest (buildTopicTree c6Forest) :=
  ⟨⟨by decide, by decide⟩,
   (C6_tree_round_trip c6Forest (by decide) (by decide)).1,
   (C6_tree_round_trip c6Forest (by decide) (by decide)).2.1 c6Child (by decide) 1 (by decide)⟩

end EduTrack
